import Mathlib

/-!
Verification of the chunking / retrieval pipeline of the RAG-APP repository
(`src/chroma_utils.py`) and of the RAG variant wrappers
(`src/Multi_Query_RAG.py`, `src/Multi_document_RAG.py`, `src/Hierarchical_RAG.py`).

The Python code is shallowly embedded: pure helpers become Lean functions,
the ChromaDB store becomes explicit state passing, fallible external calls
(file reads, PDF parsing, the embedder, `collection.add`, `collection.query`)
become `Except`-valued data or function parameters, so that a Python
exception caught by a `try/except` block corresponds to an `Except.error`
value consumed by a `match`.
-/

namespace RagApp

/-! ### Python string primitives used by `chroma_utils.py` -/

/-- Python `str.strip()`: remove leading and trailing whitespace. -/
def pyStrip (s : String) : String :=
  String.mk (((s.data.dropWhile Char.isWhitespace).reverse.dropWhile Char.isWhitespace).reverse)

/-- Worker for `pySplit`: `acc` holds the (reversed) characters of the word
currently being scanned; maximal runs of non-whitespace become words. -/
def pyWordsAux : List Char → List Char → List String
  | [], [] => []
  | a :: as, [] => [String.mk (a :: as).reverse]
  | [], c :: cs => if c.isWhitespace then pyWordsAux [] cs else pyWordsAux [c] cs
  | a :: as, c :: cs =>
    if c.isWhitespace then String.mk (a :: as).reverse :: pyWordsAux [] cs
    else pyWordsAux (c :: a :: as) cs

/-- Python `str.split()` with no argument: split on runs of whitespace,
discarding empty pieces (used at `chroma_utils.py:52`). -/
def pySplit (s : String) : List String := pyWordsAux [] s.data

/-- Python `sep.join(ws)`. -/
def pyJoinSep (sep : String) : List String → String
  | [] => ""
  | [w] => w
  | w :: ws => w ++ sep ++ pyJoinSep sep ws

/-- Python `" ".join(ws)` (used at `chroma_utils.py:61` and `:72`). -/
def joinSpace (ws : List String) : String := pyJoinSep " " ws

/-- The last `n` elements of a list (Python `l[-n:]` for `n > 0`). -/
def lastN (n : Nat) (l : List α) : List α := l.drop (l.length - n)

/-- Python slice `l[-n:]`: for `n = 0` Python's `l[-0:]` is `l[0:]`,
i.e. the whole list, not the empty list. -/
def pySliceLast (n : Nat) (l : List α) : List α := if n = 0 then l else lastN n l

/-! ### The chunker `chunk_text` (`chroma_utils.py:43-77`)

The loop state of `chunk_text`: `chunks`/`metas` are the emitted chunks
(each chunk kept as its list of words; the source joins the words with
spaces at emission, which is reflected by `chunk_text` joining at the end)
and their `page_numbers` metadata; `cur`, `curLen`, `pages`, `wc` are
`current_chunk`, `current_length`, `current_page_numbers`, `word_count`. -/
structure ChunkState where
  chunks : List (List String)
  metas : List (List Nat)
  cur : List String
  curLen : Nat
  pages : List Nat
  wc : Nat

/-- Initial state of the `chunk_text` loop (`chroma_utils.py:44-49`). -/
def chunkInit : ChunkState := ⟨[], [], [], 0, [], 0⟩

/-- `chroma_utils.py:57-58`: `if not current_page_numbers or
current_page_numbers[-1] != page_num: current_page_numbers.append(page_num)`. -/
def pagesAfter (pages : List Nat) (page : Nat) : List Nat :=
  if pages.getLast? = some page then pages else pages ++ [page]

/-- `chroma_utils.py:64`: `current_chunk[-overlap:] if overlap <
len(current_chunk) else current_chunk`. -/
def slideWindow (overlap : Nat) (c : List String) : List String :=
  if overlap < c.length then pySliceLast overlap c else c

/-- `chroma_utils.py:67`: `current_page_numbers[-1:] if
current_page_numbers else []`. -/
def pagesSlide (ps : List Nat) : List Nat :=
  if ps.isEmpty then [] else pySliceLast 1 ps

/-- One iteration of the inner word loop of `chunk_text`
(`chroma_utils.py:53-67`): accumulate the word, record its page, and when
`word_count >= max_length` emit the chunk and slide the window by `overlap`. -/
def processWord (maxLength overlap page : Nat) (st : ChunkState) (w : String) : ChunkState :=
  let cur1 := st.cur ++ [w]
  let pages1 := pagesAfter st.pages page
  if maxLength ≤ st.wc + 1 then
    let cur2 := slideWindow overlap cur1
    ⟨st.chunks ++ [cur1], st.metas ++ [pages1], cur2,
      (cur2.map (fun x => x.length + 1)).sum, pagesSlide pages1, cur2.length⟩
  else
    ⟨st.chunks, st.metas, cur1, st.curLen + (w.length + 1), pages1, st.wc + 1⟩

/-- One iteration of the outer page loop of `chunk_text`
(`chroma_utils.py:51-69`): split the page text into words, fold the word
loop, then reset `current_page_numbers` when `current_chunk` is empty. -/
def processPage (maxLength overlap : Nat) (st : ChunkState) (tp : String × Nat) : ChunkState :=
  let st1 := (pySplit tp.1).foldl (processWord maxLength overlap tp.2) st
  if st1.cur.isEmpty then ⟨st1.chunks, st1.metas, st1.cur, st1.curLen, [], st1.wc⟩ else st1

/-- The final state of the two nested loops of `chunk_text`. -/
def chunkFold (page_texts : List (String × Nat)) (maxLength overlap : Nat) : ChunkState :=
  page_texts.foldl (processPage maxLength overlap) chunkInit

/-- `chunk_text` at the level of word lists: run the page loop from the
initial state and append the leftover chunk when it is non-empty and its
joined text strips to something non-empty (`chroma_utils.py:71-75`). -/
def chunkWords (page_texts : List (String × Nat)) (maxLength overlap : Nat) :
    List (List String) × List (List Nat) :=
  let st := chunkFold page_texts maxLength overlap
  if st.cur.isEmpty then (st.chunks, st.metas)
  else if (pyStrip (joinSpace st.cur)).isEmpty then (st.chunks, st.metas)
  else (st.chunks ++ [st.cur], st.metas ++ [st.pages])

/-- `chunk_text(page_texts, max_length, overlap)` (`chroma_utils.py:43-77`,
called with `max_length=500, overlap=100`).  Each metadata dictionary
`{"page_numbers": ps}` is modelled by the list `ps`.  The source joins each
chunk's words with spaces at emission time; the word lists are not changed
after emission, so joining at the end is the same. -/
def chunk_text (page_texts : List (String × Nat)) (maxLength overlap : Nat) :
    List String × List (List Nat) :=
  ((chunkWords page_texts maxLength overlap).1.map joinSpace,
    (chunkWords page_texts maxLength overlap).2)

example : pySplit "a b  c" = ["a", "b", "c"] := by decide

example : chunk_text [("a b c", 1)] 2 2 = (["a b", "a b c", "b c"], [[1], [1], [1]]) := by decide

example : chunk_text [("a b c d e", 1)] 2 1 =
    (["a b", "b c", "c d", "d e", "e"], [[1], [1], [1], [1], [1]]) := by decide

example : chunk_text [("a", 2), ("b", 1)] 500 100 = (["a b"], [[2, 1]]) := by decide

/-! ### PDF files, hashing and extraction (`chroma_utils.py:16-41`)

A PDF file handle is modelled by the outcomes of the two external
operations performed on it: `pdf_file.read()` (the raw bytes, for hashing)
and `PyPDF2` page extraction (one `extract_text()` result per page, `none`
when `extract_text()` returns `None`).  An `Except.error` value models the
operation raising an exception.  `seek(0)` is a no-op in this model. -/
structure PdfFile where
  read : Except String (List Nat)
  pages : Except String (List (Option String))

/-- `get_pdf_hash(pdf_file)` (`chroma_utils.py:16-23`): MD5 of the file
bytes, `None` when reading raises.  The MD5 digest itself is an external
library call, passed in as the function `md5`. -/
def get_pdf_hash (md5 : List Nat → String) (f : PdfFile) : Option String :=
  match f.read with
  | Except.ok bs => some (md5 bs)
  | Except.error _ => none

/-- The page loop of `extract_pdf_text_with_pages` (`chroma_utils.py:30-37`):
`extract_text() or ""`, stripped, paired with the 1-based page number. -/
def extractPages : Nat → List (Option String) → List (String × Nat)
  | _, [] => []
  | k, t :: ts => (pyStrip (t.getD ""), k + 1) :: extractPages (k + 1) ts

/-- `extract_pdf_text_with_pages(pdf_file)` (`chroma_utils.py:25-41`):
one `(text, page_number)` pair per page, `[]` when the reader raises. -/
def extract_pdf_text_with_pages (f : PdfFile) : List (String × Nat) :=
  match f.pages with
  | Except.ok ps => extractPages 0 ps
  | Except.error _ => []

/-! ### The ChromaDB store and `add_documents` (`chroma_utils.py:79-129`) -/

/-- A metadata record written by `add_documents` (`chroma_utils.py:110-113`):
`page_numbers` is the comma-joined string of the chunk's page numbers. -/
structure AddedMeta where
  chunk_id : String
  page_numbers : String
  filename : String
deriving DecidableEq

/-- The contents of one ChromaDB collection: the four parallel lists passed
to `collection.add`.  `collection.count()` is the number of stored ids. -/
structure ChromaEntry where
  documents : List String
  embeddings : List (List ℚ)
  ids : List String
  metadatas : List AddedMeta
deriving DecidableEq

/-- The persistent ChromaDB client state: collections by name, in creation
order. -/
abbrev ChromaStore := List (String × ChromaEntry)

/-- `chroma_client.get_or_create_collection(name)` (`chroma_utils.py:89`):
return the existing collection, or create (persistently) an empty one. -/
def get_or_create_collection (store : ChromaStore) (name : String) :
    ChromaStore × ChromaEntry :=
  match List.lookup name store with
  | some e => (store, e)
  | none => (store ++ [(name, ⟨[], [], [], []⟩)], ⟨[], [], [], []⟩)

/-- `collection.add(...)` (`chroma_utils.py:116-121`): append the payload to
the named collection's contents. -/
def storeAdd (store : ChromaStore) (name : String) (payload : ChromaEntry) : ChromaStore :=
  store.map (fun kv =>
    if kv.1 = name then
      (kv.1, ⟨kv.2.documents ++ payload.documents, kv.2.embeddings ++ payload.embeddings,
        kv.2.ids ++ payload.ids, kv.2.metadatas ++ payload.metadatas⟩)
    else kv)

/-- `add_documents(pdf_file, filename)` (`chroma_utils.py:79-129`).

External calls are parameters: `md5` is the hash, `embed` is
`embedder.encode` (its exception is raised outside the inner `try`, hence
caught by the outer `except`, returning `(None, False)`), and `addRes`
injects the outcome of `collection.add` (whose exception is caught by the
inner `except` at `chroma_utils.py:124-126`, returning `(collection, False)`).
`os.path.normpath` is a pure renaming of the filename metadata and is
modelled as the identity.  The returned collection object is modelled by
its name (`some name`), `none` standing for Python `None`. -/
def add_documents (md5 : List Nat → String)
    (embed : List String → Except String (List (List ℚ)))
    (addRes : Except String Unit) (store : ChromaStore) (f : PdfFile)
    (filename : String) : ChromaStore × Option String × Bool :=
  match get_pdf_hash md5 f with
  | none => (store, none, false)
  | some h =>
    let name := "pdf_" ++ h
    let sc := get_or_create_collection store name
    if 0 < sc.2.ids.length then (sc.1, some name, false)
    else
      let pts := extract_pdf_text_with_pages f
      if pts.isEmpty then (sc.1, some name, false)
      else
        let cm := chunk_text pts 500 100
        if cm.1.isEmpty then (sc.1, some name, false)
        else
          let ids := (List.range cm.1.length).map (fun i => h ++ "_" ++ toString i)
          match embed cm.1 with
          | Except.error _ => (sc.1, none, false)
          | Except.ok embs =>
            let metadatas := (List.zip ids cm.2).map
              (fun p => AddedMeta.mk p.1 (pyJoinSep "," (p.2.map toString)) filename)
            match addRes with
            | Except.ok _ => (storeAdd sc.1 name ⟨cm.1, embs, ids, metadatas⟩, some name, true)
            | Except.error _ => (sc.1, some name, false)

/-! ### `query_collections` (`chroma_utils.py:203-244`) -/

/-- The metadata stored with a retrieved document, as returned by
`collection.query`: `page_numbers` is the comma-joined string written by
`add_documents`, `filename` is `none` when the key is absent
(`meta.get("filename", "unknown")`). -/
structure RawMeta where
  chunk_id : String
  page_numbers : String
  filename : Option String
deriving DecidableEq

/-- The per-query slice of a `collection.query` response
(`query_results["documents"][0]` and friends): parallel lists of documents,
metadatas, and optional distances. -/
structure RawQueryResult where
  documents : List String
  metadatas : List RawMeta
  distances : List (Option ℚ)
deriving DecidableEq

/-- A ChromaDB collection as seen by `query_collections`: its name and its
response to `collection.query(query_embeddings=[qe], n_results=k)`, where an
`Except.error` models the call raising. -/
structure Collection where
  name : String
  query : List ℚ → Nat → Except String RawQueryResult

/-- One parsed entry of the `parsed_results` list (`chroma_utils.py:225-236`). -/
structure RetrievedDoc where
  document : String
  chunk_id : String
  page_numbers : List Int
  filename : String
  similarity : ℚ
deriving DecidableEq

/-- `1 - dist / 2 if dist is not None else 0` (`chroma_utils.py:222`). -/
def simOfDist : Option ℚ → ℚ
  | some d => 1 - d / 2
  | none => 0

instance {ε α : Type} [DecidableEq ε] [DecidableEq α] : DecidableEq (Except ε α) := fun x y =>
  match x, y with
  | Except.ok a, Except.ok b =>
    if h : a = b then isTrue (by rw [h]) else isFalse (by simp [h])
  | Except.error a, Except.error b =>
    if h : a = b then isTrue (by rw [h]) else isFalse (by simp [h])
  | Except.ok _, Except.error _ => isFalse (by simp)
  | Except.error _, Except.ok _ => isFalse (by simp)

/-- Python `s.split(",")` (`chroma_utils.py:230`). -/
def splitCommaAux : List Char → List Char → List String
  | acc, [] => [String.mk acc.reverse]
  | acc, c :: cs =>
    if c = ',' then String.mk acc.reverse :: splitCommaAux [] cs
    else splitCommaAux (c :: acc) cs

/-- Python `s.split(",")`: split on every comma, keeping empty pieces. -/
def pySplitComma (s : String) : List String := splitCommaAux [] s.data

/-- Digit run to number: `none` on the empty run or a non-digit. -/
def digitsToNat : List Char → Option Nat
  | [] => none
  | [c] => if c.isDigit then some (c.toNat - 48) else none
  | c :: cs =>
    if c.isDigit then
      match digitsToNat cs with
      | some n => some ((c.toNat - 48) * 10 ^ cs.length + n)
      | none => none
    else none

/-- Python `int(p)` (`chroma_utils.py:230`): optional surrounding
whitespace, optional sign, one or more digits; raises otherwise. -/
def pyInt (s : String) : Except String Int :=
  match (pyStrip s).data with
  | '-' :: cs =>
    match digitsToNat cs with
    | some n => Except.ok (-(n : Int))
    | none => Except.error "invalid literal for int"
  | '+' :: cs =>
    match digitsToNat cs with
    | some n => Except.ok (n : Int)
    | none => Except.error "invalid literal for int"
  | cs =>
    match digitsToNat cs with
    | some n => Except.ok (n : Int)
    | none => Except.error "invalid literal for int"

/-- Parse one zipped `(doc, meta, similarity)` triple into a result dict
(`chroma_utils.py:225-236`); a failing `int(p)` raises. -/
def parseEntry (d : String) (m : RawMeta) (s : ℚ) : Except String RetrievedDoc := do
  let ps ← ((pySplitComma m.page_numbers).filter (fun x => !x.isEmpty)).mapM pyInt
  Except.ok ⟨d, m.chunk_id, ps, m.filename.getD "unknown", s⟩

/-- One iteration of the collection loop of `query_collections`
(`chroma_utils.py:210-237`): query the collection, derive similarities from
distances (`chroma_utils.py:222`, where a `None` distance is guarded and
becomes `0`), then parse the zipped triples.  The debug print at
`chroma_utils.py:223` evaluates the unguarded comprehension
`[1 - d / 2 for d in distances]`, so a `None` distance raises `TypeError`
there, before any result is parsed; this is modelled by the error case. -/
def parseCollection (c : Collection) (qe : List ℚ) (k : Nat) :
    Except String (List RetrievedDoc) := do
  let raw ← c.query qe k
  let sims := raw.distances.map simOfDist
  if raw.distances.any (fun d => d.isNone) then
    Except.error "TypeError: unsupported operand type for None"
  else
    (raw.documents.zip (raw.metadatas.zip sims)).mapM (fun t => parseEntry t.1 t.2.1 t.2.2)

/-- The body of the `try` block of `query_collections` up to the merged
`results` list (`chroma_utils.py:206-237`): embed the query, query every
collection in order, concatenate the parsed results. -/
def collectParsed (encode : String → Except String (List ℚ)) (q : String)
    (cols : List Collection) (k : Nat) : Except String (List RetrievedDoc) := do
  let qe ← encode q
  let rs ← cols.mapM (fun c => parseCollection c qe k)
  Except.ok rs.flatten

/-- The descending-similarity order used by
`sorted(results, key=lambda x: x["similarity"], reverse=True)`. -/
def simGE (a b : RetrievedDoc) : Prop := b.similarity ≤ a.similarity

instance : DecidableRel simGE := fun a b =>
  inferInstanceAs (Decidable (b.similarity ≤ a.similarity))

/-- Python `sorted(..., key=..., reverse=True)` (`chroma_utils.py:238`):
a stable sort by non-increasing similarity. -/
def pySortDesc (l : List RetrievedDoc) : List RetrievedDoc := List.insertionSort simGE l

/-- `query_collections(query, collections, top_k)` (`chroma_utils.py:203-244`):
sort the merged results by descending similarity, truncate to `top_k`;
any exception inside the `try` yields `[]`.  `embedder.encode` is the
parameter `encode`. -/
def query_collections (encode : String → Except String (List ℚ)) (q : String)
    (cols : List Collection) (k : Nat) : List RetrievedDoc :=
  match collectParsed encode q cols k with
  | Except.ok rs => (pySortDesc rs).take k
  | Except.error _ => []

/-- The merged pre-sort `results` list of `query_collections`
(`chroma_utils.py:209-237`), `[]` when the `try` block raises. -/
def mergedResults (encode : String → Except String (List ℚ)) (q : String)
    (cols : List Collection) (k : Nat) : List RetrievedDoc :=
  match collectParsed encode q cols k with
  | Except.ok rs => rs
  | Except.error _ => []

/-! ### The RAG variant wrappers

`MultiQueryRAG.multi_query_rag` (`src/Multi_Query_RAG.py:50-108`) and
`MultiDocumentRAG.multi_document_rag` (`src/Multi_document_RAG.py:50-104`)
run the same chunk-selection loop over `query_collections` output: skip a
result whose `chunk_id` was already seen, otherwise record the id and keep
the result.  The surrounding response/prompt strings and the history are
formatting glue around the kept list. -/

/-- One iteration of the dedup loop: the accumulator is the `chunk_ids`
seen-set (membership is all the source uses, so a list models the Python
set) and the kept results in order. -/
def dedupStep (acc : List String × List RetrievedDoc) (r : RetrievedDoc) :
    List String × List RetrievedDoc :=
  if r.chunk_id ∈ acc.1 then acc else (acc.1 ++ [r.chunk_id], acc.2 ++ [r])

/-- The deduplicated chunks retrieved by `MultiQueryRAG.multi_query_rag`
(`src/Multi_Query_RAG.py:70-99`): per query, fold the dedup loop over that
query's `query_collections` results, sharing the seen-set across queries
(`all_results` collects exactly the kept results, in order). -/
def multi_query_rag_chunks (encode : String → Except String (List ℚ))
    (queries : List String) (cols : List Collection) (k : Nat) : List RetrievedDoc :=
  (queries.foldl (fun acc q => (query_collections encode q cols k).foldl dedupStep acc)
    ([], [])).2

/-- The deduplicated chunks retrieved by `MultiDocumentRAG.multi_document_rag`
(`src/Multi_document_RAG.py:77-95`): fold the same dedup loop over the
single query's `query_collections` results. -/
def multi_document_rag_chunks (encode : String → Except String (List ℚ))
    (q : String) (cols : List Collection) (k : Nat) : List RetrievedDoc :=
  ((query_collections encode q cols k).foldl dedupStep ([], [])).2

/-! ### Conversation history (`deque(maxlen=max_history)`)

`MultiQueryRAG`, `MultiDocumentRAG` and `HierarchicalRAG` each store
`self.history = deque(maxlen=max_history)` and append `(query, response)`
pairs in `add_to_history` (`src/Multi_Query_RAG.py:17-34`,
`src/Multi_document_RAG.py:17-34`, `src/Hierarchical_RAG.py:17-34`). -/

/-- `deque(maxlen=n).append(x)`: append, discarding from the left once the
deque is full (for `maxlen=0` the deque stays empty). -/
def dequeAppend (n : Nat) (h : List α) (x : α) : List α :=
  if h.length < n then h ++ [x] else lastN n (h ++ [x])

/-- `add_to_history(query, response)` of the three RAG variant classes:
`self.history.append((query, response))` on a `deque(maxlen=max_history)`.
The query component is `String` for `MultiDocumentRAG`/`HierarchicalRAG`
and `List String` for `MultiQueryRAG`, hence the type parameter. -/
def add_to_history (maxHistory : Nat) (hist : List (α × String)) (q : α)
    (response : String) : List (α × String) :=
  dequeAppend maxHistory hist (q, response)

example : extract_pdf_text_with_pages ⟨Except.ok [], Except.ok [some " hi ", none, some "x"]⟩ =
    [("hi", 1), ("", 2), ("x", 3)] := by decide

example : pyInt "12" = Except.ok 12 := by decide
example : pyInt "-3" = Except.ok (-3) := by decide
example : pyInt "" = Except.error "invalid literal for int" := by decide

/-! ### Lemmas about the Python string primitives -/

/-- A word as produced by Python `str.split()`: non-empty and free of
whitespace. -/
def wordOk (w : String) : Prop := w.data ≠ [] ∧ ∀ c ∈ w.data, ¬ c.isWhitespace

theorem mk_data (s : String) : String.mk s.data = s := by
  cases s
  rfl

theorem string_ne_empty_of_data {s : String} (h : s.data ≠ []) : s ≠ "" := by
  intro e
  rw [e] at h
  exact h rfl

theorem pyWordsAux_wordOk :
    ∀ (cs acc : List Char), (∀ c ∈ acc, ¬ c.isWhitespace) →
      ∀ w ∈ pyWordsAux acc cs, wordOk w := by
  intro cs
  induction cs with
  | nil =>
    intro acc hacc w hw
    cases acc with
    | nil => simp [pyWordsAux] at hw
    | cons a as =>
      simp only [pyWordsAux, List.mem_singleton] at hw
      subst hw
      refine ⟨by simp, ?_⟩
      intro c hc
      exact hacc c (List.mem_reverse.mp hc)
  | cons c cs ih =>
    intro acc hacc w hw
    cases acc with
    | nil =>
      simp only [pyWordsAux] at hw
      by_cases hws : c.isWhitespace
      · simp only [hws, if_true] at hw
        exact ih [] (by simp) w hw
      · simp only [hws, if_false] at hw
        refine ih [c] ?_ w hw
        intro d hd
        rw [List.mem_singleton] at hd
        subst hd
        exact hws
    | cons a as =>
      simp only [pyWordsAux] at hw
      by_cases hws : c.isWhitespace
      · simp only [hws, if_true, List.mem_cons] at hw
        rcases hw with hw | hw
        · subst hw
          refine ⟨by simp, ?_⟩
          intro d hd
          exact hacc d (List.mem_reverse.mp hd)
        · exact ih [] (by simp) w hw
      · simp only [hws, if_false] at hw
        refine ih (c :: a :: as) ?_ w hw
        intro d hd
        rcases List.mem_cons.1 hd with h | h
        · subst h; exact hws
        · exact hacc d h

/-- Every word returned by `pySplit` is non-empty and whitespace-free. -/
theorem pySplit_wordOk (s : String) : ∀ w ∈ pySplit s, wordOk w :=
  pyWordsAux_wordOk s.data [] (by simp)

theorem pyWordsAux_nonws (ds : List Char) (hds : ∀ c ∈ ds, ¬ c.isWhitespace) :
    ∀ (acc rest : List Char), pyWordsAux acc (ds ++ rest) = pyWordsAux (ds.reverse ++ acc) rest := by
  induction ds with
  | nil => intro acc rest; simp
  | cons d ds ih =>
    intro acc rest
    have hd : ¬ d.isWhitespace := hds d (by simp)
    have hds2 : ∀ c ∈ ds, ¬ c.isWhitespace := fun c hc => hds c (by simp [hc])
    have step : pyWordsAux acc (d :: (ds ++ rest)) = pyWordsAux (d :: acc) (ds ++ rest) := by
      cases acc with
      | nil => simp [pyWordsAux, hd]
      | cons a as => simp [pyWordsAux, hd]
    rw [List.cons_append, step, ih hds2 (d :: acc) rest]
    simp

theorem joinSpace_cons (w : String) (ws : List String) (h : ws ≠ []) :
    joinSpace (w :: ws) = w ++ " " ++ joinSpace ws := by
  cases ws with
  | nil => exact absurd rfl h
  | cons a t => rfl

theorem space_isWhitespace : (' ' : Char).isWhitespace = true := rfl

/-- `str.split()` inverts `" ".join` on lists of non-empty, whitespace-free
words. -/
theorem pySplit_joinSpace : ∀ ws : List String, (∀ w ∈ ws, wordOk w) →
    pySplit (joinSpace ws) = ws := by
  intro ws
  induction ws with
  | nil => intro _; rfl
  | cons w ws ih =>
    intro hok
    have hw : wordOk w := hok w (by simp)
    obtain ⟨a, as, hrev⟩ : ∃ a as, w.data.reverse = a :: as := by
      have : w.data.reverse ≠ [] := by
        simpa [List.reverse_eq_nil_iff] using hw.1
      exact List.exists_cons_of_ne_nil this
    cases ws with
    | nil =>
      show pyWordsAux [] (joinSpace [w]).data = [w]
      have hd : (joinSpace [w]).data = w.data ++ [] := by simp [joinSpace, pyJoinSep]
      rw [hd, pyWordsAux_nonws w.data hw.2, List.append_nil, hrev]
      show [String.mk (a :: as).reverse] = [w]
      rw [← hrev, List.reverse_reverse, mk_data]
    | cons b t =>
      have hrest : ∀ x ∈ b :: t, wordOk x := fun x hx => hok x (by simp [hx])
      have hdata : (joinSpace (w :: b :: t)).data
          = w.data ++ (' ' :: (joinSpace (b :: t)).data) := by
        rw [joinSpace_cons w (b :: t) (by simp)]
        simp
      show pyWordsAux [] (joinSpace (w :: b :: t)).data = w :: b :: t
      rw [hdata, pyWordsAux_nonws w.data hw.2, List.append_nil, hrev]
      show (if (' ' : Char).isWhitespace then
          String.mk (a :: as).reverse :: pyWordsAux [] (joinSpace (b :: t)).data
        else pyWordsAux (' ' :: a :: as) (joinSpace (b :: t)).data) = w :: b :: t
      rw [if_pos space_isWhitespace, ← hrev, List.reverse_reverse, mk_data]
      exact congrArg (w :: ·) (ih hrest)

/-- `" ".join` of a non-empty list of non-empty words is a non-empty string. -/
theorem joinSpace_ne_empty (ws : List String) (hne : ws ≠ [])
    (hok : ∀ w ∈ ws, wordOk w) : joinSpace ws ≠ "" := by
  apply string_ne_empty_of_data
  cases ws with
  | nil => exact absurd rfl hne
  | cons w t =>
    have hw : wordOk w := hok w (by simp)
    cases t with
    | nil => exact hw.1
    | cons a t2 =>
      rw [joinSpace_cons w (a :: t2) (by simp)]
      simp only [String.data_append]
      intro h
      exact hw.1 (List.append_eq_nil.1 (List.append_eq_nil.1 h).1).1

/-! ### Lemmas about `lastN` and `pySliceLast` -/

theorem lastN_length_le (n : Nat) (l : List α) : (lastN n l).length ≤ n := by
  simp only [lastN, List.length_drop]
  omega

theorem lastN_length_of_le {n : Nat} {l : List α} (h : n ≤ l.length) :
    (lastN n l).length = n := by
  simp only [lastN, List.length_drop]
  omega

theorem lastN_subset (n : Nat) (l : List α) : lastN n l ⊆ l :=
  List.drop_subset _ _

theorem lastN_ne_nil {n : Nat} {l : List α} (hn : 0 < n) (hl : l ≠ []) :
    lastN n l ≠ [] := by
  have hlen : 0 < l.length := List.length_pos.2 hl
  apply List.ne_nil_of_length_pos
  simp only [lastN, List.length_drop]
  omega

theorem pySliceLast_eq_lastN {n : Nat} (hn : n ≠ 0) (l : List α) :
    pySliceLast n l = lastN n l := if_neg hn

theorem pySliceLast_subset (n : Nat) (l : List α) : pySliceLast n l ⊆ l := by
  by_cases h : n = 0
  · simp [pySliceLast, h]
  · rw [pySliceLast_eq_lastN h]
    exact lastN_subset n l

theorem pySliceLast_ne_nil {n : Nat} {l : List α} (hl : l ≠ []) :
    pySliceLast n l ≠ [] := by
  by_cases h : n = 0
  · simpa [pySliceLast, h] using hl
  · rw [pySliceLast_eq_lastN h]
    exact lastN_ne_nil (Nat.pos_of_ne_zero h) hl

theorem chain'_of_length_le_one {R : α → α → Prop} :
    ∀ {l : List α}, l.length ≤ 1 → l.Chain' R
  | [], _ => List.chain'_nil
  | [a], _ => List.chain'_singleton a
  | _ :: _ :: _, h => by simp at h

theorem lastN_append_lastN (n : Nat) (l xs : List α) :
    lastN n (lastN n l ++ xs) = lastN n (l ++ xs) := by
  by_cases h : n ≤ l.length
  · have hk : l.length - n ≤ l.length := Nat.sub_le _ _
    have h1 : lastN n l ++ xs = List.drop (l.length - n) (l ++ xs) := by
      rw [lastN, List.drop_append_of_le_length hk]
    rw [lastN, h1, List.drop_drop, lastN]
    congr 1
    simp only [List.length_drop, List.length_append]
    omega
  · have hl : lastN n l = l := by
      rw [lastN, Nat.sub_eq_zero_of_le (Nat.le_of_not_le h), List.drop_zero]
    rw [hl]

/-! ### Invariants of the `chunk_text` loop -/

theorem pagesAfter_ne_nil (ps : List Nat) (p : Nat) : pagesAfter ps p ≠ [] := by
  unfold pagesAfter
  by_cases h : ps.getLast? = some p
  · rw [if_pos h]
    intro e
    rw [e] at h
    simp at h
  · rw [if_neg h]
    simp

theorem pagesAfter_mem {ps : List Nat} {p x : Nat} (hx : x ∈ pagesAfter ps p) :
    x ∈ ps ∨ x = p := by
  unfold pagesAfter at hx
  by_cases h : ps.getLast? = some p
  · rw [if_pos h] at hx
    exact Or.inl hx
  · rw [if_neg h] at hx
    rcases List.mem_append.1 hx with h2 | h2
    · exact Or.inl h2
    · exact Or.inr (by simpa using h2)

theorem slideWindow_subset (ov : Nat) (c : List String) : slideWindow ov c ⊆ c := by
  unfold slideWindow
  by_cases h : ov < c.length
  · rw [if_pos h]
    exact pySliceLast_subset _ _
  · rw [if_neg h]
    exact fun x hx => hx

theorem slideWindow_ne_nil {ov : Nat} {c : List String} (hc : c ≠ []) :
    slideWindow ov c ≠ [] := by
  unfold slideWindow
  by_cases h : ov < c.length
  · rw [if_pos h]
    exact pySliceLast_ne_nil hc
  · rw [if_neg h]
    exact hc

theorem slideWindow_of_lt {ov : Nat} {c : List String} (h0 : 0 < ov) (h : ov < c.length) :
    slideWindow ov c = lastN ov c := by
  rw [slideWindow, if_pos h, pySliceLast_eq_lastN (Nat.pos_iff_ne_zero.1 h0)]

theorem pagesSlide_subset (ps : List Nat) : pagesSlide ps ⊆ ps := by
  unfold pagesSlide
  by_cases h : ps.isEmpty
  · rw [if_pos h]
    simp
  · rw [if_neg h]
    exact pySliceLast_subset _ _

theorem pagesSlide_ne_nil {ps : List Nat} (h : ps ≠ []) : pagesSlide ps ≠ [] := by
  rw [pagesSlide, if_neg (by simpa using h)]
  exact pySliceLast_ne_nil h

theorem pagesSlide_length_le (ps : List Nat) : (pagesSlide ps).length ≤ 1 := by
  unfold pagesSlide
  by_cases h : ps.isEmpty
  · rw [if_pos h]
    simp
  · rw [if_neg h, pySliceLast_eq_lastN (by omega)]
    exact lastN_length_le 1 ps

/-- Invariant of the `chunk_text` loop that holds for every input:
`word_count` tracks `len(current_chunk)`, chunks and metadata stay in
lockstep, every accumulated word is a real `split()` word, emitted chunks
are non-empty, and `current_page_numbers`/metadata entries are non-empty. -/
structure InvA (st : ChunkState) : Prop where
  wc_eq : st.wc = st.cur.length
  len_eq : st.chunks.length = st.metas.length
  cur_ok : ∀ w ∈ st.cur, wordOk w
  chunks_ne : ∀ c ∈ st.chunks, c ≠ []
  chunks_ok : ∀ c ∈ st.chunks, ∀ w ∈ c, wordOk w
  pages_ne : st.cur ≠ [] → st.pages ≠ []
  metas_ne : ∀ m ∈ st.metas, m ≠ []

theorem invA_init : InvA chunkInit := by
  constructor <;> simp [chunkInit]

theorem invA_processWord {maxL ov p : Nat} {st : ChunkState} {w : String}
    (hA : InvA st) (hw : wordOk w) : InvA (processWord maxL ov p st w) := by
  unfold processWord
  by_cases hemit : maxL ≤ st.wc + 1
  · rw [if_pos hemit]
    refine ⟨rfl, by simp [hA.len_eq], ?_, ?_, ?_, ?_, ?_⟩
    · intro x hx
      rcases List.mem_append.1 (slideWindow_subset ov _ hx) with h | h
      · exact hA.cur_ok x h
      · rw [List.mem_singleton] at h
        subst h
        exact hw
    · intro c hc
      rcases List.mem_append.1 hc with h | h
      · exact hA.chunks_ne c h
      · rw [List.mem_singleton] at h
        subst h
        simp
    · intro c hc x hx
      rcases List.mem_append.1 hc with h | h
      · exact hA.chunks_ok c h x hx
      · rw [List.mem_singleton] at h
        subst h
        rcases List.mem_append.1 hx with h2 | h2
        · exact hA.cur_ok x h2
        · rw [List.mem_singleton] at h2
          subst h2
          exact hw
    · intro _
      exact pagesSlide_ne_nil (pagesAfter_ne_nil st.pages p)
    · intro m hm
      rcases List.mem_append.1 hm with h | h
      · exact hA.metas_ne m h
      · rw [List.mem_singleton] at h
        subst h
        exact pagesAfter_ne_nil st.pages p
  · rw [if_neg hemit]
    refine ⟨by simp [hA.wc_eq], hA.len_eq, ?_, hA.chunks_ne, hA.chunks_ok, ?_, hA.metas_ne⟩
    · intro x hx
      rcases List.mem_append.1 hx with h | h
      · exact hA.cur_ok x h
      · rw [List.mem_singleton] at h
        subst h
        exact hw
    · intro _
      exact pagesAfter_ne_nil st.pages p

theorem invA_foldWords {maxL ov p : Nat} :
    ∀ (ws : List String) (st : ChunkState), (∀ w ∈ ws, wordOk w) → InvA st →
      InvA (ws.foldl (processWord maxL ov p) st) := by
  intro ws
  induction ws with
  | nil => intro st _ hA; exact hA
  | cons w ws ih =>
    intro st hok hA
    exact ih _ (fun x hx => hok x (by simp [hx]))
      (invA_processWord hA (hok w (by simp)))

theorem invA_processPage {maxL ov : Nat} {st : ChunkState} {tp : String × Nat}
    (hA : InvA st) : InvA (processPage maxL ov st tp) := by
  unfold processPage
  have h1 : InvA ((pySplit tp.1).foldl (processWord maxL ov tp.2) st) :=
    invA_foldWords _ st (pySplit_wordOk tp.1) hA
  by_cases h : ((pySplit tp.1).foldl (processWord maxL ov tp.2) st).cur.isEmpty
  · rw [if_pos h]
    refine ⟨h1.wc_eq, h1.len_eq, h1.cur_ok, h1.chunks_ne, h1.chunks_ok, ?_, h1.metas_ne⟩
    intro hc
    exact absurd (by simpa using h) hc
  · rw [if_neg h]
    exact h1

theorem invA_chunkFold (pts : List (String × Nat)) (maxL ov : Nat) :
    InvA (chunkFold pts maxL ov) := by
  unfold chunkFold
  suffices h : ∀ (l : List (String × Nat)) (st : ChunkState), InvA st →
      InvA (l.foldl (processPage maxL ov) st) from h pts chunkInit invA_init
  intro l
  induction l with
  | nil => intro st hA; exact hA
  | cons tp l ih => intro st hA; exact ih _ (invA_processPage hA)

/-- The overlap relation between consecutive emitted chunks: the later one
starts with the last `ov` words of the earlier one. -/
def OverlapRel (ov : Nat) (a b : List String) : Prop :=
  ov ≤ b.length ∧ b.take ov = lastN ov a

/-- Invariant of the `chunk_text` loop under `0 < overlap < max_length`:
the window stays strictly below `max_length` words, every emitted chunk has
exactly `max_length` words, the window starts with the last `overlap` words
of the last emitted chunk, and consecutive emitted chunks overlap. -/
structure InvB (maxL ov : Nat) (st : ChunkState) : Prop where
  cur_lt : st.cur.length < maxL
  chunks_len : ∀ c ∈ st.chunks, c.length = maxL
  last_ov : ∀ L, st.chunks.getLast? = some L →
    ov ≤ st.cur.length ∧ st.cur.take ov = lastN ov L
  chain : st.chunks.Chain' (OverlapRel ov)

theorem invB_init {maxL ov : Nat} (h : 0 < maxL) : InvB maxL ov chunkInit := by
  refine ⟨by simpa [chunkInit] using h, by simp [chunkInit], ?_, by simp [chunkInit]⟩
  intro L hL
  simp [chunkInit] at hL

theorem invB_processWord {maxL ov p : Nat} {st : ChunkState} {w : String}
    (h0 : 0 < ov) (h1 : ov < maxL) (hA : InvA st) (hB : InvB maxL ov st) :
    InvB maxL ov (processWord maxL ov p st w) := by
  unfold processWord
  by_cases hemit : maxL ≤ st.wc + 1
  · rw [if_pos hemit]
    have hwc : st.wc = st.cur.length := hA.wc_eq
    have hcur1len : (st.cur ++ [w]).length = maxL := by
      have := hB.cur_lt
      simp only [List.length_append, List.length_singleton]
      omega
    have hov_lt : ov < (st.cur ++ [w]).length := by rw [hcur1len]; exact h1
    have hsw : slideWindow ov (st.cur ++ [w]) = lastN ov (st.cur ++ [w]) :=
      slideWindow_of_lt h0 hov_lt
    have hswlen : (slideWindow ov (st.cur ++ [w])).length = ov := by
      rw [hsw]
      exact lastN_length_of_le (Nat.le_of_lt hov_lt)
    refine ⟨?_, ?_, ?_, ?_⟩
    · show (slideWindow ov (st.cur ++ [w])).length < maxL
      rw [hswlen]
      exact h1
    · intro c hc
      rcases List.mem_append.1 hc with h | h
      · exact hB.chunks_len c h
      · rw [List.mem_singleton] at h
        subst h
        exact hcur1len
    · intro L hL
      rw [List.getLast?_concat, Option.some_inj] at hL
      subst hL
      refine ⟨by rw [hswlen], ?_⟩
      rw [List.take_of_length_le (by rw [hswlen]), hsw]
    · refine List.chain'_append.2 ⟨hB.chain, List.chain'_singleton _, ?_⟩
      intro x hx y hy
      rw [Option.mem_def] at hx
      simp only [List.head?_cons, Option.mem_def, Option.some_inj] at hy
      subst hy
      obtain ⟨hle, htake⟩ := hB.last_ov x hx
      refine ⟨by rw [hcur1len]; exact Nat.le_of_lt h1, ?_⟩
      rw [List.take_append_of_le_length hle, htake]
  · rw [if_neg hemit]
    have hwc : st.wc = st.cur.length := hA.wc_eq
    refine ⟨?_, hB.chunks_len, ?_, hB.chain⟩
    · show (st.cur ++ [w]).length < maxL
      simp only [List.length_append, List.length_singleton]
      omega
    · intro L hL
      obtain ⟨hle, htake⟩ := hB.last_ov L hL
      refine ⟨Nat.le_trans hle (by simp), ?_⟩
      rw [List.take_append_of_le_length hle, htake]

theorem invAB_foldWords {maxL ov p : Nat} (h0 : 0 < ov) (h1 : ov < maxL) :
    ∀ (ws : List String) (st : ChunkState), (∀ w ∈ ws, wordOk w) →
      InvA st → InvB maxL ov st →
      InvB maxL ov (ws.foldl (processWord maxL ov p) st) := by
  intro ws
  induction ws with
  | nil => intro st _ _ hB; exact hB
  | cons w ws ih =>
    intro st hok hA hB
    exact ih _ (fun x hx => hok x (by simp [hx]))
      (invA_processWord hA (hok w (by simp)))
      (invB_processWord h0 h1 hA hB)

theorem invB_processPage {maxL ov : Nat} {st : ChunkState} {tp : String × Nat}
    (h0 : 0 < ov) (h1 : ov < maxL) (hA : InvA st) (hB : InvB maxL ov st) :
    InvB maxL ov (processPage maxL ov st tp) := by
  unfold processPage
  have hfold : InvB maxL ov ((pySplit tp.1).foldl (processWord maxL ov tp.2) st) :=
    invAB_foldWords h0 h1 _ st (pySplit_wordOk tp.1) hA hB
  by_cases h : ((pySplit tp.1).foldl (processWord maxL ov tp.2) st).cur.isEmpty
  · rw [if_pos h]
    exact ⟨hfold.cur_lt, hfold.chunks_len, hfold.last_ov, hfold.chain⟩
  · rw [if_neg h]
    exact hfold

theorem invB_chunkFold (pts : List (String × Nat)) {maxL ov : Nat}
    (h0 : 0 < ov) (h1 : ov < maxL) : InvB maxL ov (chunkFold pts maxL ov) := by
  unfold chunkFold
  suffices h : ∀ (l : List (String × Nat)) (st : ChunkState), InvA st → InvB maxL ov st →
      InvB maxL ov (l.foldl (processPage maxL ov) st) from
    h pts chunkInit invA_init (invB_init (Nat.lt_of_le_of_lt (Nat.zero_le ov) h1))
  intro l
  induction l with
  | nil => intro st _ hB; exact hB
  | cons tp l ih =>
    intro st hA hB
    exact ih _ (invA_processPage hA) (invB_processPage h0 h1 hA hB)

/-- Invariant of the `chunk_text` loop for inputs whose page numbers are
non-decreasing: `current_page_numbers` and every metadata entry are
strictly increasing. -/
structure InvC (st : ChunkState) : Prop where
  pages_chain : st.pages.Chain' (· < ·)
  metas_chain : ∀ m ∈ st.metas, m.Chain' (· < ·)

theorem invC_init : InvC chunkInit :=
  ⟨List.chain'_nil, by simp [chunkInit]⟩

theorem pagesAfter_chain {ps : List Nat} {p : Nat} (hc : ps.Chain' (· < ·))
    (hbd : ∀ x ∈ ps, x ≤ p) : (pagesAfter ps p).Chain' (· < ·) := by
  unfold pagesAfter
  by_cases h : ps.getLast? = some p
  · rw [if_pos h]
    exact hc
  · rw [if_neg h]
    refine List.chain'_append.2 ⟨hc, List.chain'_singleton p, ?_⟩
    intro x hx y hy
    rw [Option.mem_def] at hx
    simp only [List.head?_cons, Option.mem_def, Option.some_inj] at hy
    subst hy
    have hxp : x ≤ p := hbd x (List.mem_of_getLast?_eq_some hx)
    have hne : x ≠ p := by
      intro e
      subst e
      exact h hx
    omega

theorem pagesAfter_le {ps : List Nat} {p : Nat} (hbd : ∀ x ∈ ps, x ≤ p) :
    ∀ x ∈ pagesAfter ps p, x ≤ p := by
  intro x hx
  rcases pagesAfter_mem hx with h | h
  · exact hbd x h
  · omega

theorem invC_processWord {maxL ov p : Nat} {st : ChunkState} {w : String}
    (hC : InvC st) (hbd : ∀ x ∈ st.pages, x ≤ p) :
    InvC (processWord maxL ov p st w) ∧
      ∀ x ∈ (processWord maxL ov p st w).pages, x ≤ p := by
  unfold processWord
  by_cases hemit : maxL ≤ st.wc + 1
  · rw [if_pos hemit]
    refine ⟨⟨?_, ?_⟩, ?_⟩
    · exact chain'_of_length_le_one (pagesSlide_length_le _)
    · intro m hm
      rcases List.mem_append.1 hm with h | h
      · exact hC.metas_chain m h
      · rw [List.mem_singleton] at h
        subst h
        exact pagesAfter_chain hC.pages_chain hbd
    · intro x hx
      exact pagesAfter_le hbd x (pagesSlide_subset _ hx)
  · rw [if_neg hemit]
    exact ⟨⟨pagesAfter_chain hC.pages_chain hbd, hC.metas_chain⟩, pagesAfter_le hbd⟩

theorem invC_foldWords {maxL ov p : Nat} :
    ∀ (ws : List String) (st : ChunkState), InvC st → (∀ x ∈ st.pages, x ≤ p) →
      InvC (ws.foldl (processWord maxL ov p) st) ∧
        ∀ x ∈ (ws.foldl (processWord maxL ov p) st).pages, x ≤ p := by
  intro ws
  induction ws with
  | nil => intro st hC hbd; exact ⟨hC, hbd⟩
  | cons w ws ih =>
    intro st hC hbd
    obtain ⟨hC1, hbd1⟩ := @invC_processWord maxL ov p st w hC hbd
    exact ih _ hC1 hbd1

theorem invC_processPage {maxL ov : Nat} {st : ChunkState} {tp : String × Nat}
    (hC : InvC st) (hbd : ∀ x ∈ st.pages, x ≤ tp.2) :
    InvC (processPage maxL ov st tp) ∧
      ∀ x ∈ (processPage maxL ov st tp).pages, x ≤ tp.2 := by
  unfold processPage
  obtain ⟨hC1, hbd1⟩ := invC_foldWords (pySplit tp.1) st hC hbd
  by_cases h : ((pySplit tp.1).foldl (processWord maxL ov tp.2) st).cur.isEmpty
  · rw [if_pos h]
    exact ⟨⟨List.chain'_nil, hC1.metas_chain⟩, by simp⟩
  · rw [if_neg h]
    exact ⟨hC1, hbd1⟩

theorem invC_foldPages {maxL ov : Nat} :
    ∀ (pts : List (String × Nat)) (st : ChunkState), InvC st →
      (pts.map Prod.snd).Pairwise (· ≤ ·) →
      (∀ x ∈ st.pages, ∀ q ∈ pts.map Prod.snd, x ≤ q) →
      InvC (pts.foldl (processPage maxL ov) st) := by
  intro pts
  induction pts with
  | nil => intro st hC _ _; exact hC
  | cons tp rest ih =>
    intro st hC hp hbd
    simp only [List.map_cons, List.pairwise_cons] at hp
    obtain ⟨hhead, htail⟩ := hp
    have hbd0 : ∀ x ∈ st.pages, x ≤ tp.2 := fun x hx => hbd x hx tp.2 (by simp)
    obtain ⟨hC1, hbd1⟩ := @invC_processPage maxL ov st tp hC hbd0
    refine ih _ hC1 htail ?_
    intro x hx q hq
    exact Nat.le_trans (hbd1 x hx) (hhead q hq)

theorem invC_chunkFold (pts : List (String × Nat)) (maxL ov : Nat)
    (hp : (pts.map Prod.snd).Pairwise (· ≤ ·)) : InvC (chunkFold pts maxL ov) :=
  invC_foldPages pts chunkInit invC_init hp (by simp [chunkInit])

/-! ### Properties of `chunkWords` and `chunk_text` -/

theorem chunkWords_cases (pts : List (String × Nat)) (maxL ov : Nat) :
    chunkWords pts maxL ov = ((chunkFold pts maxL ov).chunks, (chunkFold pts maxL ov).metas) ∨
      ((chunkFold pts maxL ov).cur ≠ [] ∧
        chunkWords pts maxL ov =
          ((chunkFold pts maxL ov).chunks ++ [(chunkFold pts maxL ov).cur],
            (chunkFold pts maxL ov).metas ++ [(chunkFold pts maxL ov).pages])) := by
  unfold chunkWords
  by_cases h1 : (chunkFold pts maxL ov).cur.isEmpty
  · rw [if_pos h1]
    exact Or.inl rfl
  · rw [if_neg h1]
    by_cases h2 : (pyStrip (joinSpace (chunkFold pts maxL ov).cur)).isEmpty
    · rw [if_pos h2]
      exact Or.inl rfl
    · rw [if_neg h2]
      exact Or.inr ⟨by simpa using h1, rfl⟩

theorem chunkWords_all_ok (pts : List (String × Nat)) (maxL ov : Nat) :
    ∀ c ∈ (chunkWords pts maxL ov).1, c ≠ [] ∧ ∀ w ∈ c, wordOk w := by
  have hA := invA_chunkFold pts maxL ov
  rcases chunkWords_cases pts maxL ov with h | ⟨hcur, h⟩ <;> rw [h] <;> intro c hc
  · exact ⟨hA.chunks_ne c hc, hA.chunks_ok c hc⟩
  · rcases List.mem_append.1 hc with h2 | h2
    · exact ⟨hA.chunks_ne c h2, hA.chunks_ok c h2⟩
    · rw [List.mem_singleton] at h2
      subst h2
      exact ⟨hcur, hA.cur_ok⟩

theorem chunkWords_len_eq (pts : List (String × Nat)) (maxL ov : Nat) :
    (chunkWords pts maxL ov).1.length = (chunkWords pts maxL ov).2.length := by
  have hA := invA_chunkFold pts maxL ov
  rcases chunkWords_cases pts maxL ov with h | ⟨_, h⟩ <;> rw [h] <;> simp [hA.len_eq]

theorem chunkWords_metas_ne (pts : List (String × Nat)) (maxL ov : Nat) :
    ∀ m ∈ (chunkWords pts maxL ov).2, m ≠ [] := by
  have hA := invA_chunkFold pts maxL ov
  rcases chunkWords_cases pts maxL ov with h | ⟨hcur, h⟩ <;> rw [h] <;> intro m hm
  · exact hA.metas_ne m hm
  · rcases List.mem_append.1 hm with h2 | h2
    · exact hA.metas_ne m h2
    · rw [List.mem_singleton] at h2
      subst h2
      exact hA.pages_ne hcur

theorem chunkWords_nonfinal_len (pts : List (String × Nat)) {maxL ov : Nat}
    (h0 : 0 < ov) (h1 : ov < maxL) :
    ∀ c ∈ (chunkWords pts maxL ov).1.dropLast, c.length = maxL := by
  have hB := invB_chunkFold pts h0 h1
  rcases chunkWords_cases pts maxL ov with h | ⟨_, h⟩ <;> rw [h] <;> intro c hc
  · exact hB.chunks_len c ((List.dropLast_sublist _).subset hc)
  · rw [List.dropLast_concat] at hc
    exact hB.chunks_len c hc

theorem chunkWords_chain (pts : List (String × Nat)) {maxL ov : Nat}
    (h0 : 0 < ov) (h1 : ov < maxL) :
    (chunkWords pts maxL ov).1.Chain' (OverlapRel ov) := by
  have hB := invB_chunkFold pts h0 h1
  rcases chunkWords_cases pts maxL ov with h | ⟨hcur, h⟩ <;> rw [h]
  · exact hB.chain
  · refine List.chain'_append.2 ⟨hB.chain, List.chain'_singleton _, ?_⟩
    intro x hx y hy
    rw [Option.mem_def] at hx
    simp only [List.head?_cons, Option.mem_def, Option.some_inj] at hy
    subst hy
    exact hB.last_ov x hx

theorem chunkWords_metas_chain (pts : List (String × Nat)) (maxL ov : Nat)
    (hp : (pts.map Prod.snd).Pairwise (· ≤ ·)) :
    ∀ m ∈ (chunkWords pts maxL ov).2, m.Chain' (· < ·) := by
  have hC := invC_chunkFold pts maxL ov hp
  rcases chunkWords_cases pts maxL ov with h | ⟨_, h⟩ <;> rw [h] <;> intro m hm
  · exact hC.metas_chain m hm
  · rcases List.mem_append.1 hm with h2 | h2
    · exact hC.metas_chain m h2
    · rw [List.mem_singleton] at h2
      subst h2
      exact hC.pages_chain

theorem chain'_imp_mem {P : α → Prop} {R S : α → α → Prop}
    (h : ∀ a b, P a → P b → R a b → S a b) :
    ∀ {l : List α}, (∀ a ∈ l, P a) → l.Chain' R → l.Chain' S := by
  intro l
  induction l with
  | nil => intro _ _; exact List.chain'_nil
  | cons a t ih =>
    intro hP hc
    cases t with
    | nil => exact List.chain'_singleton a
    | cons b t2 =>
      rw [List.chain'_cons] at hc ⊢
      refine ⟨h a b (hP a (by simp)) (hP b (by simp)) hc.1, ?_⟩
      exact ih (fun x hx => hP x (List.mem_cons_of_mem a hx)) hc.2

theorem chunk_text_fst (pts : List (String × Nat)) (maxL ov : Nat) :
    (chunk_text pts maxL ov).1 = (chunkWords pts maxL ov).1.map joinSpace := rfl

/-! ### Claim C1 -/

/-- C1, as stated, is false: the threshold check `word_count >= max_length`
compares the number of accumulated words with `max_length`, and when
`overlap >= max_length` the slid window already has `max_length` words, so
the next emission happens at `max_length + 1` words.  At
`chunk_text([("a b c", 1)], max_length=2, overlap=2)` the second (non-final)
chunk is `"a b c"` with 3 ≠ 2 words. -/
theorem c1_counterexample :
    ¬ (∀ c ∈ (chunk_text [("a b c", 1)] 2 2).1.dropLast, (pySplit c).length = 2) := by
  decide

/-- C1 (amended): `chunk_text` emits a chunk exactly when the number of
accumulated words reaches `max_length`; provided `0 < overlap < max_length`
(as with the defaults 500 and 100), every chunk except possibly the final
one is emitted with exactly `max_length` words.  The threshold counts
words, not characters: the character-length accumulator `current_length`
is maintained but never consulted. -/
theorem c1_chunk_text_nonfinal_word_count (pts : List (String × Nat)) (maxL ov : Nat)
    (h0 : 0 < ov) (h1 : ov < maxL) :
    ∀ c ∈ (chunk_text pts maxL ov).1.dropLast, (pySplit c).length = maxL := by
  intro c hc
  rw [chunk_text_fst, ← List.map_dropLast] at hc
  obtain ⟨cw, hcw, rfl⟩ := List.mem_map.1 hc
  have hmem : cw ∈ (chunkWords pts maxL ov).1 := (List.dropLast_sublist _).subset hcw
  have hok := (chunkWords_all_ok pts maxL ov cw hmem).2
  rw [pySplit_joinSpace cw hok]
  exact chunkWords_nonfinal_len pts h0 h1 cw hcw

/-- Witness for C1 at `chunk_text([("a b c", 1)], max_length=2, overlap=1)`. -/
theorem c1_chunk_text_nonfinal_word_count_witness :
    0 < 1 ∧ 1 < 2 ∧
      ∀ c ∈ (chunk_text [("a b c", 1)] 2 1).1.dropLast, (pySplit c).length = 2 :=
  ⟨by decide, by decide,
    c1_chunk_text_nonfinal_word_count [("a b c", 1)] 2 1 (by decide) (by decide)⟩

/-! ### Claim C2 -/

/-- C2: with `0 < overlap < max_length`, every emitted chunk after the
first (the final leftover chunk included) begins with exactly the last
`overlap` words of the previously emitted chunk. -/
theorem c2_chunk_text_overlap (pts : List (String × Nat)) (maxL ov : Nat)
    (h0 : 0 < ov) (h1 : ov < maxL) :
    (chunk_text pts maxL ov).1.Chain' (fun a b =>
      ov ≤ (pySplit b).length ∧ (pySplit b).take ov = lastN ov (pySplit a)) := by
  rw [chunk_text_fst, List.chain'_map]
  refine chain'_imp_mem ?_ (chunkWords_all_ok pts maxL ov) (chunkWords_chain pts h0 h1)
  intro a b pa pb hR
  rw [pySplit_joinSpace a pa.2, pySplit_joinSpace b pb.2]
  exact hR

/-- Witness for C2 at `chunk_text([("a b c d e", 1)], max_length=2, overlap=1)`. -/
theorem c2_chunk_text_overlap_witness :
    0 < 1 ∧ 1 < 2 ∧
      (chunk_text [("a b c d e", 1)] 2 1).1.Chain' (fun a b =>
        1 ≤ (pySplit b).length ∧ (pySplit b).take 1 = lastN 1 (pySplit a)) :=
  ⟨by decide, by decide,
    c2_chunk_text_overlap [("a b c d e", 1)] 2 1 (by decide) (by decide)⟩

/-! ### Claim C9 -/

/-- C9, as stated, is false: when the input page numbers are not in order,
a metadata `page_numbers` list need not be strictly increasing.  At
`chunk_text([("a", 2), ("b", 1)], 500, 100)` the single metadata entry is
`[2, 1]`. -/
theorem c9_counterexample :
    ¬ (∀ m ∈ (chunk_text [("a", 2), ("b", 1)] 500 100).2, m.Pairwise (· < ·)) := by
  decide

/-- C9 (amended): for every input, `chunk_text` returns equally long chunk
and metadata lists, every returned chunk is a non-empty string, and every
metadata `page_numbers` list is non-empty; provided the page numbers of
`page_texts` are non-decreasing (as produced by
`extract_pdf_text_with_pages`), every metadata `page_numbers` list is also
strictly increasing. -/
theorem c9_chunk_text_shape (pts : List (String × Nat)) (maxL ov : Nat) :
    (chunk_text pts maxL ov).1.length = (chunk_text pts maxL ov).2.length ∧
      (∀ c ∈ (chunk_text pts maxL ov).1, c ≠ "") ∧
      (∀ m ∈ (chunk_text pts maxL ov).2, m ≠ []) ∧
      ((pts.map Prod.snd).Pairwise (· ≤ ·) →
        ∀ m ∈ (chunk_text pts maxL ov).2, m.Pairwise (· < ·)) := by
  refine ⟨?_, ?_, ?_, ?_⟩
  · rw [chunk_text_fst]
    rw [List.length_map]
    exact chunkWords_len_eq pts maxL ov
  · intro c hc
    rw [chunk_text_fst] at hc
    obtain ⟨cw, hcw, rfl⟩ := List.mem_map.1 hc
    obtain ⟨hne, hok⟩ := chunkWords_all_ok pts maxL ov cw hcw
    exact joinSpace_ne_empty cw hne hok
  · exact chunkWords_metas_ne pts maxL ov
  · intro hp m hm
    exact List.chain'_iff_pairwise.1 (chunkWords_metas_chain pts maxL ov hp m hm)

/-- Witness for C9 at `chunk_text([("a b", 1), ("c", 2)], 500, 100)`,
discharging the non-decreasing-pages hypothesis of the last conjunct. -/
theorem c9_chunk_text_shape_witness :
    ((chunk_text [("a b", 1), ("c", 2)] 500 100).1.length
        = (chunk_text [("a b", 1), ("c", 2)] 500 100).2.length ∧
      (∀ c ∈ (chunk_text [("a b", 1), ("c", 2)] 500 100).1, c ≠ "") ∧
      (∀ m ∈ (chunk_text [("a b", 1), ("c", 2)] 500 100).2, m ≠ [])) ∧
      (([("a b", 1), ("c", 2)].map Prod.snd).Pairwise (· ≤ ·) ∧
        ∀ m ∈ (chunk_text [("a b", 1), ("c", 2)] 500 100).2, m.Pairwise (· < ·)) :=
  ⟨⟨(c9_chunk_text_shape [("a b", 1), ("c", 2)] 500 100).1,
      (c9_chunk_text_shape [("a b", 1), ("c", 2)] 500 100).2.1,
      (c9_chunk_text_shape [("a b", 1), ("c", 2)] 500 100).2.2.1⟩,
    by decide,
    (c9_chunk_text_shape [("a b", 1), ("c", 2)] 500 100).2.2.2 (by decide)⟩

/-! ### Claim C10 -/

theorem dequeAppend_eq_lastN (n : Nat) (h : List α) (x : α) :
    dequeAppend n h x = lastN n (h ++ [x]) := by
  unfold dequeAppend
  by_cases hlt : h.length < n
  · rw [if_pos hlt, lastN, Nat.sub_eq_zero_of_le (by simp; omega), List.drop_zero]
  · rw [if_neg hlt]

theorem lastN_length_le_self (n : Nat) (l : List α) : (lastN n l).length ≤ l.length := by
  simp only [lastN, List.length_drop]
  omega

theorem foldl_dequeAppend (n : Nat) :
    ∀ (xs : List α) (h : List α), h.length ≤ n →
      xs.foldl (dequeAppend n) h = lastN n (h ++ xs) := by
  intro xs
  induction xs with
  | nil =>
    intro h hle
    simp only [List.foldl_nil, List.append_nil, lastN]
    rw [Nat.sub_eq_zero_of_le hle, List.drop_zero]
  | cons x xs ih =>
    intro h hle
    rw [List.foldl_cons, dequeAppend_eq_lastN n h x,
      ih _ (Nat.le_trans (lastN_length_le _ _) (Nat.le_refl n)), lastN_append_lastN]
    simp

/-- C10: starting from the empty `deque(maxlen=n)`, any sequence of
`add_to_history` calls leaves at most `n` stored turns, and they are
exactly the `n` most recent `(query, response)` pairs in insertion order
(`lastN n xs`).  The theorem is stated over an arbitrary query type `α`,
covering `MultiQueryRAG` (lists of queries) as well as `MultiDocumentRAG`
and `HierarchicalRAG` (single query strings). -/
theorem c10_history_bounded (α : Type) (n : Nat) (xs : List (α × String)) :
    (xs.foldl (fun h p => add_to_history n h p.1 p.2) []).length ≤ n ∧
      xs.foldl (fun h p => add_to_history n h p.1 p.2) [] = lastN n xs := by
  have hfold : xs.foldl (fun h p => add_to_history n h p.1 p.2) [] = lastN n xs := by
    have he : (fun (h : List (α × String)) (p : α × String) => add_to_history n h p.1 p.2)
        = dequeAppend n := by
      funext h p
      rfl
    rw [he, foldl_dequeAppend n xs [] (by simp), List.nil_append]
  exact ⟨by rw [hfold]; exact lastN_length_le n xs, hfold⟩

/-! ### Claim C3 -/

/-- C3: content-hash deduplication in `add_documents`.  When the
`pdf_{md5}` collection of a PDF already holds at least one document, a
further call returns that collection with `processed = False` and leaves
the whole store unchanged: nothing is extracted, chunked, embedded or
added. -/
theorem c3_add_documents_dedup (md5 : List Nat → String)
    (embed : List String → Except String (List (List ℚ))) (addRes : Except String Unit)
    (store : ChromaStore) (f : PdfFile) (filename h : String) (e : ChromaEntry)
    (hh : get_pdf_hash md5 f = some h)
    (hl : List.lookup ("pdf_" ++ h) store = some e)
    (hc : 0 < e.ids.length) :
    add_documents md5 embed addRes store f filename = (store, some ("pdf_" ++ h), false) := by
  simp only [add_documents, get_or_create_collection, hh, hl, hc, if_true]

def wMd5 : List Nat → String := fun _ => "h"

def wPdf : PdfFile := ⟨Except.ok [], Except.ok [some "hello"]⟩

def wEntry : ChromaEntry := ⟨["d"], [[1]], ["pdf_h_0"], [⟨"pdf_h_0", "1", "f.pdf"⟩]⟩

def wStore : ChromaStore := [("pdf_h", wEntry)]

/-- Witness for C3: a store whose `pdf_h` collection already holds one
document is returned unchanged with `processed = False`. -/
theorem c3_add_documents_dedup_witness :
    get_pdf_hash wMd5 wPdf = some "h" ∧
      List.lookup ("pdf_" ++ "h") wStore = some wEntry ∧
      0 < wEntry.ids.length ∧
      add_documents wMd5 (fun _ => Except.ok []) (Except.ok ()) wStore wPdf "f.pdf"
        = (wStore, some ("pdf_" ++ "h"), false) :=
  ⟨by decide, by decide, by decide,
    c3_add_documents_dedup wMd5 (fun _ => Except.ok []) (Except.ok ()) wStore wPdf "f.pdf"
      "h" wEntry (by decide) (by decide) (by decide)⟩

/-! ### Claim C7 -/

theorem extractPages_length : ∀ (k : Nat) (ps : List (Option String)),
    (extractPages k ps).length = ps.length := by
  intro k ps
  induction ps generalizing k with
  | nil => rfl
  | cons t ts ih => simp [extractPages, ih]

theorem extractPages_map_fst : ∀ (k : Nat) (ps : List (Option String)),
    (extractPages k ps).map Prod.fst = ps.map (fun t => pyStrip (t.getD "")) := by
  intro k ps
  induction ps generalizing k with
  | nil => rfl
  | cons t ts ih => simp [extractPages, ih]

theorem extractPages_map_snd : ∀ (k : Nat) (ps : List (Option String)),
    (extractPages k ps).map Prod.snd = List.range' (k + 1) ps.length := by
  intro k ps
  induction ps generalizing k with
  | nil => rfl
  | cons t ts ih =>
    simp only [extractPages, List.map_cons, List.length_cons, List.range'_succ, ih]

/-- C7: on a readable PDF with `n` pages, `extract_pdf_text_with_pages`
returns exactly `n` pairs, whose texts are the stripped `extract_text()`
results in document order (a page with no extractable text contributes the
empty string rather than being dropped) and whose page numbers are
`1, 2, ..., n`. -/
theorem c7_extract_pages (f : PdfFile) (ps : List (Option String))
    (hf : f.pages = Except.ok ps) :
    (extract_pdf_text_with_pages f).length = ps.length ∧
      (extract_pdf_text_with_pages f).map Prod.fst = ps.map (fun t => pyStrip (t.getD "")) ∧
      (extract_pdf_text_with_pages f).map Prod.snd = List.range' 1 ps.length := by
  unfold extract_pdf_text_with_pages
  rw [hf]
  exact ⟨extractPages_length 0 ps, extractPages_map_fst 0 ps, extractPages_map_snd 0 ps⟩

/-! ### Claim C4 -/

instance : IsTotal RetrievedDoc simGE :=
  ⟨fun a b => le_total b.similarity a.similarity⟩

instance : IsTrans RetrievedDoc simGE :=
  ⟨fun _ _ _ hab hbc => le_trans hbc hab⟩

theorem pySortDesc_sorted (l : List RetrievedDoc) : (pySortDesc l).Pairwise simGE :=
  List.sorted_insertionSort simGE l

theorem pySortDesc_perm (l : List RetrievedDoc) : List.Perm (pySortDesc l) l :=
  List.perm_insertionSort simGE l

theorem query_collections_eq (encode : String → Except String (List ℚ)) (q : String)
    (cols : List Collection) (k : Nat) :
    query_collections encode q cols k
      = (pySortDesc (mergedResults encode q cols k)).take k := by
  unfold query_collections mergedResults
  cases h : collectParsed encode q cols k with
  | ok rs => rfl
  | error e => simp [pySortDesc, List.insertionSort]

/-- C4: for a non-empty list of collections, `query_collections` returns at
most `top_k` results: it merges the per-collection responses (in collection
order), and the returned list is sorted by non-increasing similarity, drawn
from the merged list, and top-k optimal (every merged result left out has
similarity at most that of every returned one). -/
theorem c4_query_collections_topk (encode : String → Except String (List ℚ)) (q : String)
    (cols : List Collection) (k : Nat) (_hne : cols ≠ []) :
    (query_collections encode q cols k).length ≤ k ∧
      ((query_collections encode q cols k).map RetrievedDoc.similarity).Pairwise
        (fun a b => b ≤ a) ∧
      List.Subperm (query_collections encode q cols k) (mergedResults encode q cols k) ∧
      (∀ y ∈ mergedResults encode q cols k, y ∉ query_collections encode q cols k →
        ∀ x ∈ query_collections encode q cols k, y.similarity ≤ x.similarity) := by
  rw [query_collections_eq]
  refine ⟨?_, ?_, ?_, ?_⟩
  · rw [List.length_take]
    exact Nat.min_le_left _ _
  · exact ((pySortDesc_sorted _).sublist (List.take_sublist _ _)).map
      RetrievedDoc.similarity (fun a b hab => hab)
  · exact List.Subperm.trans (List.take_sublist _ _).subperm (pySortDesc_perm _).subperm
  · intro y hy hyn x hx
    have hys : y ∈ pySortDesc (mergedResults encode q cols k) :=
      (pySortDesc_perm _).mem_iff.2 hy
    have hsplit := (List.take_append_drop k (pySortDesc (mergedResults encode q cols k))).symm
    have hpw := pySortDesc_sorted (mergedResults encode q cols k)
    rw [hsplit] at hpw
    have hcross := (List.pairwise_append.1 hpw).2.2
    have hydrop : y ∈ (pySortDesc (mergedResults encode q cols k)).drop k := by
      rw [hsplit] at hys
      rcases List.mem_append.1 hys with h | h
      · exact absurd h hyn
      · exact h
    exact hcross x hx y hydrop

def wEncode : String → Except String (List ℚ) := fun _ => Except.ok [1]

def wRaw : RawQueryResult :=
  ⟨["d1", "d2"], [⟨"id1", "1", none⟩, ⟨"id2", "2", some "f"⟩], [some 0, some 1]⟩

def wCol : Collection := ⟨"c", fun _ _ => Except.ok wRaw⟩

/-- Witness for C4 with one collection returning two results and `top_k = 1`. -/
theorem c4_query_collections_topk_witness :
    [wCol] ≠ [] ∧
      ((query_collections wEncode "q" [wCol] 1).length ≤ 1 ∧
        ((query_collections wEncode "q" [wCol] 1).map RetrievedDoc.similarity).Pairwise
          (fun a b => b ≤ a) ∧
        List.Subperm (query_collections wEncode "q" [wCol] 1) (mergedResults wEncode "q" [wCol] 1) ∧
        (∀ y ∈ mergedResults wEncode "q" [wCol] 1, y ∉ query_collections wEncode "q" [wCol] 1 →
          ∀ x ∈ query_collections wEncode "q" [wCol] 1, y.similarity ≤ x.similarity)) :=
  ⟨by simp, c4_query_collections_topk wEncode "q" [wCol] 1 (by simp)⟩

/-! ### Claim C5 -/

theorem except_bind_ok {α β : Type} {x : Except String α} {f : α → Except String β} {c : β} :
    x >>= f = Except.ok c ↔ ∃ b, x = Except.ok b ∧ f b = Except.ok c := by
  cases x with
  | ok a => simp [Bind.bind, Except.bind]
  | error e => simp [Bind.bind, Except.bind]

theorem mapM_ok_mem {α β : Type} {f : α → Except String β} :
    ∀ {l : List α} {out : List β}, l.mapM f = Except.ok out →
      ∀ y ∈ out, ∃ a ∈ l, f a = Except.ok y := by
  intro l
  induction l with
  | nil =>
    intro out h y hy
    simp only [List.mapM_nil] at h
    have : out = [] := by simpa [pure, Except.pure] using h.symm
    subst this
    simp at hy
  | cons a l ih =>
    intro out h y hy
    rw [List.mapM_cons] at h
    obtain ⟨b, hb, h2⟩ := except_bind_ok.1 h
    obtain ⟨bs, hbs, h3⟩ := except_bind_ok.1 h2
    have hout : b :: bs = out := by simpa [pure, Except.pure] using h3
    subst hout
    rcases List.mem_cons.1 hy with hy | hy
    · subst hy
      exact ⟨a, by simp, hb⟩
    · obtain ⟨a2, ha2, hfa2⟩ := ih hbs y hy
      exact ⟨a2, by simp [ha2], hfa2⟩

theorem parseEntry_ok_sim {d : String} {m : RawMeta} {s : ℚ} {r : RetrievedDoc}
    (h : parseEntry d m s = Except.ok r) : r.similarity = s := by
  unfold parseEntry at h
  obtain ⟨ps, _, h2⟩ := except_bind_ok.1 h
  cases h2
  rfl

theorem parseCollection_ok {c : Collection} {qe : List ℚ} {k : Nat}
    {out : List RetrievedDoc} (h : parseCollection c qe k = Except.ok out) :
    ∃ raw, c.query qe k = Except.ok raw ∧
      ∀ r ∈ out, ∃ d, some d ∈ raw.distances ∧ r.similarity = simOfDist (some d) := by
  unfold parseCollection at h
  obtain ⟨raw, hraw, h2⟩ := except_bind_ok.1 h
  by_cases hnone : raw.distances.any (fun d => d.isNone)
  · rw [if_pos hnone] at h2
    exact absurd h2 (by simp)
  · rw [if_neg hnone] at h2
    refine ⟨raw, hraw, ?_⟩
    intro r hr
    obtain ⟨t, ht, hpe⟩ := mapM_ok_mem h2 r hr
    obtain ⟨t1, t2, t3⟩ := t
    have hsim : r.similarity = t3 := parseEntry_ok_sim hpe
    have ht2 : (t2, t3) ∈ raw.metadatas.zip (raw.distances.map simOfDist) :=
      (List.of_mem_zip ht).2
    have ht3 : t3 ∈ raw.distances.map simOfDist := (List.of_mem_zip ht2).2
    obtain ⟨d0, hd0, hds⟩ := List.mem_map.1 ht3
    cases d0 with
    | none =>
      exact absurd (List.any_eq_true.2 ⟨none, hd0, rfl⟩) hnone
    | some d =>
      exact ⟨d, hd0, by rw [hsim, ← hds]⟩

theorem collectParsed_ok {encode : String → Except String (List ℚ)} {q : String}
    {cols : List Collection} {k : Nat} {rs : List RetrievedDoc}
    (h : collectParsed encode q cols k = Except.ok rs) :
    ∃ qe, encode q = Except.ok qe ∧
      ∃ parts, cols.mapM (fun c => parseCollection c qe k) = Except.ok parts ∧
        rs = parts.flatten := by
  unfold collectParsed at h
  obtain ⟨qe, hqe, h2⟩ := except_bind_ok.1 h
  obtain ⟨parts, hparts, h3⟩ := except_bind_ok.1 h2
  cases h3
  exact ⟨qe, hqe, parts, hparts, rfl⟩

def wRaw0 : RawQueryResult := ⟨["doc"], [⟨"id0", "1", none⟩], [some 0]⟩

def wCol0 : Collection := ⟨"c0", fun _ _ => Except.ok wRaw0⟩

def wDoc0 : RetrievedDoc := ⟨"doc", "id0", [1], "unknown", simOfDist (some 0)⟩

theorem c5_query_eval : query_collections wEncode "q" [wCol0] 3 = [wDoc0] := rfl

/-- C5, as stated, is false: the system computes its own similarity scores.
With a collection whose only delegated distance is `0`, the returned
similarity is `1 - 0/2 = 1`, which is not among the values provided by the
vector-store library. -/
theorem c5_counterexample :
    ¬ (∀ r ∈ query_collections wEncode "q" [wCol0] 3,
        some r.similarity ∈ wRaw0.distances) := by
  intro hall
  have h := hall wDoc0 (by rw [c5_query_eval]; exact List.mem_singleton.2 rfl)
  have hd : wRaw0.distances = [some (0 : ℚ)] := rfl
  rw [hd, List.mem_singleton, Option.some_inj] at h
  have hsim : wDoc0.similarity = simOfDist (some 0) := rfl
  have hone : simOfDist (some 0) = (1 : ℚ) := by norm_num [simOfDist]
  rw [hsim, hone] at h
  norm_num at h

/-- C5 (amended): `query_collections` derives every returned similarity by
its own affine rescaling `1 - distance/2` of a distance delegated to the
vector-store library; the rescaling is order-reversing in the distance, so
the ranking (sorting by descending similarity) coincides with the library's
ascending-distance ranking. -/
theorem c5_similarity_provenance :
    (∀ (encode : String → Except String (List ℚ)) (q : String) (cols : List Collection)
      (k : Nat), ∀ r ∈ query_collections encode q cols k,
        ∃ qe, encode q = Except.ok qe ∧ ∃ c ∈ cols, ∃ raw, c.query qe k = Except.ok raw ∧
          ∃ d, some d ∈ raw.distances ∧ r.similarity = simOfDist (some d)) ∧
      (∀ a b : ℚ, (simOfDist (some a) ≤ simOfDist (some b) ↔ b ≤ a)) := by
  constructor
  · intro encode q cols k r hr
    unfold query_collections at hr
    cases h : collectParsed encode q cols k with
    | error e =>
      rw [h] at hr
      simp at hr
    | ok rs =>
      rw [h] at hr
      have hrs : r ∈ rs :=
        (pySortDesc_perm rs).mem_iff.1 ((List.take_sublist _ _).subset hr)
      obtain ⟨qe, hqe, parts, hparts, hflat⟩ := collectParsed_ok h
      subst hflat
      obtain ⟨part, hpart, hrpart⟩ := List.mem_flatten.1 hrs
      obtain ⟨c, hc, hcp⟩ := mapM_ok_mem hparts part hpart
      obtain ⟨raw, hraw, hprops⟩ := parseCollection_ok hcp
      obtain ⟨d, hd, hds⟩ := hprops r hrpart
      exact ⟨qe, hqe, c, hc, raw, hraw, d, ⟨hd, hds⟩⟩
  · intro a b
    simp only [simOfDist]
    constructor <;> intro h <;> linarith

/-- Witness for C5: the single result of a one-collection query carries a
similarity derived from the library's distance, and the rescaling reverses
a concrete distance comparison. -/
theorem c5_similarity_provenance_witness :
    wDoc0 ∈ query_collections wEncode "q" [wCol0] 3 ∧
      (∃ qe, wEncode "q" = Except.ok qe ∧
        ∃ c ∈ [wCol0], ∃ raw, c.query qe 3 = Except.ok raw ∧
          ∃ d, some d ∈ raw.distances ∧ wDoc0.similarity = simOfDist (some d)) ∧
      (simOfDist (some 0) ≤ simOfDist (some 2) ↔ (2 : ℚ) ≤ 0) :=
  ⟨by rw [c5_query_eval]; exact List.mem_singleton.2 rfl,
    c5_similarity_provenance.1 wEncode "q" [wCol0] 3 wDoc0
      (by rw [c5_query_eval]; exact List.mem_singleton.2 rfl),
    c5_similarity_provenance.2 0 2⟩

/-! ### Claim C8 -/

theorem dedup_foldl_invariant :
    ∀ (l : List RetrievedDoc) (acc : List String × List RetrievedDoc),
      (∀ r ∈ acc.2, r.chunk_id ∈ acc.1) →
      acc.2.Pairwise (fun a b => a.chunk_id ≠ b.chunk_id) →
      (∀ r ∈ (l.foldl dedupStep acc).2, r.chunk_id ∈ (l.foldl dedupStep acc).1) ∧
        (l.foldl dedupStep acc).2.Pairwise (fun a b => a.chunk_id ≠ b.chunk_id) := by
  intro l
  induction l with
  | nil => intro acc h1 h2; exact ⟨h1, h2⟩
  | cons r l ih =>
    intro acc h1 h2
    rw [List.foldl_cons]
    unfold dedupStep
    by_cases hmem : r.chunk_id ∈ acc.1
    · rw [if_pos hmem]
      exact ih acc h1 h2
    · rw [if_neg hmem]
      refine ih _ ?_ ?_
      · intro x hx
        rcases List.mem_append.1 hx with h | h
        · exact List.mem_append.2 (Or.inl (h1 x h))
        · rw [List.mem_singleton] at h
          subst h
          exact List.mem_append.2 (Or.inr (by simp))
      · refine List.pairwise_append.2 ⟨h2, by simp, ?_⟩
        intro a ha b hb
        rw [List.mem_singleton] at hb
        subst hb
        intro e
        exact hmem (e ▸ h1 a ha)

/-- C8: with `fine_tune=False` and a single query, `MultiQueryRAG` and
`MultiDocumentRAG` retrieve and keep exactly the same deduplicated list of
chunks — the same `RetrievedDoc` records (documents, chunk ids, page
numbers, filenames, similarities) in the same order — and the kept list
has pairwise distinct chunk ids; the two methods differ only in the
response text built around this list. -/
theorem c8_rag_variants_equivalent (encode : String → Except String (List ℚ))
    (q : String) (cols : List Collection) (k : Nat) :
    multi_query_rag_chunks encode [q] cols k = multi_document_rag_chunks encode q cols k ∧
      (multi_document_rag_chunks encode q cols k).Pairwise
        (fun a b => a.chunk_id ≠ b.chunk_id) := by
  constructor
  · rfl
  · exact (dedup_foldl_invariant (query_collections encode q cols k) ([], [])
      (by simp) (by simp)).2

/-! ### Claim C6 -/

def wPdfBad : PdfFile := ⟨Except.error "e", Except.error "e"⟩

/-- C6, as stated, is false: an exception raised by `collection.add` is
caught by the inner handler at `chroma_utils.py:124-126`, and
`add_documents` returns `(collection, False)` — the collection, not
`None`. -/
theorem c6_counterexample :
    (add_documents wMd5 (fun cs => Except.ok (cs.map (fun _ => [0])))
        (Except.error "boom") [] wPdf "f.pdf").2 = (some ("pdf_" ++ "h"), false) ∧
      some ("pdf_" ++ "h") ≠ (none : Option String) := by
  exact ⟨by decide, by decide⟩

/-- C6 (amended): failure recovery is catch-and-log only.  On an internal
exception, `get_pdf_hash` returns `None`, `extract_pdf_text_with_pages`
returns `[]`, `query_collections` returns `[]`, and `add_documents` returns
`processed = False` — with first component `None` when the exception occurs
outside the inner `collection.add` block, and the collection itself when
`collection.add` raises.  No exception propagates (every embedded function
is total). -/
theorem c6_catch_and_log :
    (∀ (md5 : List Nat → String) (f : PdfFile) (err : String),
        f.read = Except.error err → get_pdf_hash md5 f = none) ∧
      (∀ (f : PdfFile) (err : String),
        f.pages = Except.error err → extract_pdf_text_with_pages f = []) ∧
      (∀ (encode : String → Except String (List ℚ)) (q : String) (cols : List Collection)
        (k : Nat) (err : String),
        collectParsed encode q cols k = Except.error err →
          query_collections encode q cols k = []) ∧
      (∀ (md5 : List Nat → String) (embed : List String → Except String (List (List ℚ)))
        (addRes : Except String Unit) (store : ChromaStore) (f : PdfFile) (fn err : String),
        f.read = Except.error err →
          add_documents md5 embed addRes store f fn = (store, none, false)) ∧
      (∀ (md5 : List Nat → String) (embed : List String → Except String (List (List ℚ)))
        (store : ChromaStore) (f : PdfFile) (fn err : String),
        (add_documents md5 embed (Except.error err) store f fn).2.2 = false ∧
          ((add_documents md5 embed (Except.error err) store f fn).2.1 = none ∨
            ∃ h, get_pdf_hash md5 f = some h ∧
              (add_documents md5 embed (Except.error err) store f fn).2.1
                = some ("pdf_" ++ h))) := by
  refine ⟨?_, ?_, ?_, ?_, ?_⟩
  · intro md5 f err h
    simp [get_pdf_hash, h]
  · intro f err h
    simp [extract_pdf_text_with_pages, h]
  · intro encode q cols k err h
    simp [query_collections, h]
  · intro md5 embed addRes store f fn err h
    simp [add_documents, get_pdf_hash, h]
  · intro md5 embed store f fn err
    unfold add_documents
    cases hget : get_pdf_hash md5 f with
    | none => exact ⟨rfl, Or.inl rfl⟩
    | some h =>
      simp only []
      by_cases h1 : 0 < (get_or_create_collection store ("pdf_" ++ h)).2.ids.length
      · rw [if_pos h1]
        exact ⟨rfl, Or.inr ⟨h, rfl, rfl⟩⟩
      · rw [if_neg h1]
        by_cases h2 : (extract_pdf_text_with_pages f).isEmpty
        · rw [if_pos h2]
          exact ⟨rfl, Or.inr ⟨h, rfl, rfl⟩⟩
        · rw [if_neg h2]
          by_cases h3 : (chunk_text (extract_pdf_text_with_pages f) 500 100).1.isEmpty
          · rw [if_pos h3]
            exact ⟨rfl, Or.inr ⟨h, rfl, rfl⟩⟩
          · rw [if_neg h3]
            cases hemb : embed (chunk_text (extract_pdf_text_with_pages f) 500 100).1 with
            | error msg => exact ⟨rfl, Or.inl rfl⟩
            | ok embs => exact ⟨rfl, Or.inr ⟨h, rfl, rfl⟩⟩

/-- Witness for C6: concrete failing reads, failing page extraction, a
failing embedder, and a failing `collection.add`. -/
theorem c6_catch_and_log_witness :
    get_pdf_hash wMd5 wPdfBad = none ∧
      extract_pdf_text_with_pages wPdfBad = [] ∧
      query_collections (fun _ => Except.error "e") "q" [] 3 = [] ∧
      add_documents wMd5 (fun _ => Except.ok []) (Except.ok ()) [] wPdfBad "f"
        = ([], none, false) ∧
      ((add_documents wMd5 (fun _ => Except.ok []) (Except.error "boom") [] wPdf "f").2.2
          = false ∧
        ((add_documents wMd5 (fun _ => Except.ok []) (Except.error "boom") [] wPdf "f").2.1
            = none ∨
          ∃ h, get_pdf_hash wMd5 wPdf = some h ∧
            (add_documents wMd5 (fun _ => Except.ok []) (Except.error "boom") [] wPdf "f").2.1
              = some ("pdf_" ++ h))) := by
  obtain ⟨h1, h2, h3, h4, h5⟩ := c6_catch_and_log
  exact ⟨h1 wMd5 wPdfBad "e" rfl, h2 wPdfBad "e" rfl,
    h3 (fun _ => Except.error "e") "q" [] 3 "e" rfl,
    h4 wMd5 (fun _ => Except.ok []) (Except.ok ()) [] wPdfBad "f" "e" rfl,
    h5 wMd5 (fun _ => Except.ok []) [] wPdf "f" "boom"⟩

/-- Witness for C7 on a two-page PDF whose second page has no extractable
text. -/
theorem c7_extract_pages_witness :
    (PdfFile.mk (Except.ok []) (Except.ok [some " hi ", none])).pages
        = Except.ok [some " hi ", none] ∧
      ((extract_pdf_text_with_pages ⟨Except.ok [], Except.ok [some " hi ", none]⟩).length
          = [some " hi ", none].length ∧
        (extract_pdf_text_with_pages ⟨Except.ok [], Except.ok [some " hi ", none]⟩).map Prod.fst
          = [some " hi ", none].map (fun t => pyStrip (t.getD "")) ∧
        (extract_pdf_text_with_pages ⟨Except.ok [], Except.ok [some " hi ", none]⟩).map Prod.snd
          = List.range' 1 [some " hi ", none].length) :=
  ⟨rfl, c7_extract_pages ⟨Except.ok [], Except.ok [some " hi ", none]⟩ [some " hi ", none] rfl⟩

end RagApp
